import Mathlib

/-!
# The message codec of `messagecoder.cpp`

A shallow embedding of `CMessageCoder` (src/src/messagecoder.cpp): the static
frequency table, the range table built from it, the arithmetic coder
`tryEncode` with its digit search, the chunking loop of `encode`, and the
decoder `decodeChunk` / `decode`.

Conventions of the embedding.

* `QString` is a list of characters, `QChar` is `Char`, `qint64` is `Int`.
* `double` and `long double` values are exact rationals: every arithmetic
  operation of the source is performed without rounding.  The weights of the
  frequency table are four-digit decimals, so every value the coder handles has
  a finite decimal expansion.
* The namespace `Machine` repeats the range table and `tryEncode` with the
  rounding of the source's number types (binary64 for `double`, the x87
  extended format for `long double`); it serves where the rounding decides
  what the coder does.
* `QMap<QChar, QPair<double, double>>` is an association list kept sorted by
  key, which is the order in which `keys()` enumerates it.
* The library routines the coder calls (`boost::lexical_cast`,
  `QString::toDouble`, `QString::toInt`, `QString::number`, `QString::mid`)
  follow their documented behaviour; `BitcoinUnits::parse` and
  `BitcoinUnits::format`, whose sources are absent, follow the spec.
* Loops whose termination is not structural carry a fuel argument and return
  `none` when the fuel runs out; the theorems `decodeChunk_fuel_suffices` and
  `encode_fuel_suffices` show that the fuel the wrappers supply always suffices.
-/

namespace CMessageCoder

/-- A `QString`, as the list of its characters. -/
abbrev QString := List Char

/-- The range table type `QMap<QChar, QPair<double, double>>`: key/value pairs
in increasing key order. -/
abbrev QMap := List (Char × (ℚ × ℚ))

/-- The assignment `map[key] = value`: replaces the value of an existing key,
otherwise inserts the pair at its place in key order. -/
def QMap.insert : QMap → Char → (ℚ × ℚ) → QMap
  | [], key, value => [(key, value)]
  | (k, v) :: rest, key, value =>
    if key < k then (key, value) :: (k, v) :: rest
    else if key = k then (k, value) :: rest
    else (k, v) :: QMap.insert rest key value

/-- The read access `map[key]` on a constant map: the stored value, or the
default-constructed pair `(0, 0)` when the key is absent. -/
def QMap.value : QMap → Char → (ℚ × ℚ)
  | [], _ => (0, 0)
  | (k, v) :: rest, key => if key = k then v else QMap.value rest key

/-- The list `map.keys()`, in increasing key order. -/
def QMap.keys (m : QMap) : List Char := m.map Prod.fst

/-- The member `terminator`, set to a full stop by the constructor. -/
def terminator : Char := '.'

/-- The member `maxSymbolsPerCodeWord`, set to 7 by the constructor. -/
def maxSymbolsPerCodeWord : Nat := 7

/-- The function `createFrequencyMap`: the relative frequencies of all the
valid characters, in the order in which they are appended. -/
def createFrequencyMap : List (Char × ℚ) :=
  [('a', 0.0609), ('b', 0.0105), ('c', 0.0284), ('d', 0.0292), ('e', 0.1136),
   ('f', 0.0179), ('g', 0.0138), ('h', 0.0341), ('i', 0.0544), ('j', 0.0024),
   ('k', 0.0041), ('l', 0.0292), ('m', 0.0276), ('n', 0.0544), ('o', 0.0600),
   ('p', 0.0195), ('q', 0.0024), ('r', 0.0495), ('s', 0.0568), ('t', 0.0803),
   ('u', 0.0243), ('v', 0.0097), ('w', 0.0138), ('x', 0.0024), ('y', 0.0130),
   ('z', 0.0003), (' ', 0.1217), (terminator, 0.0658)]

/-- The loop of `createCharacterRanges` over the frequency vector: `low` is the
running lower bound, `results` the map built so far. -/
def createCharacterRangesLoop : List (Char × ℚ) → ℚ → QMap → QMap
  | [], _, results => results
  | i :: frequencies, low, results =>
    let high := i.2 + low
    createCharacterRangesLoop frequencies high (QMap.insert results i.1 (low, high))

/-- The function `createCharacterRanges`: the minimum and maximum value of each
character, by cumulative summation of the frequencies. -/
def createCharacterRanges : QMap :=
  createCharacterRangesLoop createFrequencyMap 0 []

/-- The member `characterRanges`, initialised by the constructor. -/
def characterRanges : QMap := createCharacterRanges

/-! ### Library routines used by the coder -/

/-- Value of a decimal digit character, as `QString(c).toInt()` computes it:
the digit for `'0'` to `'9'`, and 0 (failed conversion) for any other
character. -/
def toInt (c : Char) : Nat := if c.isDigit then c.toNat - 48 else 0

/-- Value of a string of decimal digits. -/
def natOfDigits (s : QString) : Nat := s.foldl (fun n c => 10 * n + toInt c) 0

/-- The string `QString::number(n)` of a natural number. -/
def number (n : Nat) : QString := Nat.toDigits 10 n

/-- Number of significant digits that `boost::lexical_cast` requests for a
`long double` with a 64-bit significand: `2 + 64 * 30103 / 100000`. -/
def lcastPrecision : Nat := 2 + 64 * 30103 / 100000

/-- Search for the least `k`, starting from the given one, with
`den ≤ num * 10 ^ k`; the first argument bounds the search. -/
def exponentBelowOne (num den : Nat) : Nat → Nat → Nat
  | 0, k => k
  | fuel + 1, k => if den ≤ num * 10 ^ k then k else exponentBelowOne num den fuel (k + 1)

/-- Decimal exponent of a nonzero rational `q`: the integer `e` with
`10 ^ e ≤ |q| < 10 ^ (e + 1)`. -/
def decimalExponent (q : ℚ) : Int :=
  let n := q.num.natAbs
  let d := q.den
  if d ≤ n then ((Nat.toDigits 10 (n / d)).length : Int) - 1
  else - (exponentBelowOne n d d 1 : Int)

/-- The quotient `num / den` rounded to the nearest integer, ties to even. -/
def roundHalfEven (num den : Nat) : Nat :=
  let n := num / den
  let r := num % den
  if den < 2 * r ∨ (2 * r = den ∧ n % 2 = 1) then n + 1 else n

/-- The significand of `|q|` rounded to `lcastPrecision` significant digits,
with the decimal exponent of the rounded value. -/
def significantDigits (q : ℚ) : Nat × Int :=
  let e := decimalExponent q
  let shift : Int := (lcastPrecision : Int) - 1 - e
  let n := roundHalfEven (q.num.natAbs * 10 ^ shift.toNat) (q.den * 10 ^ (- shift).toNat)
  if n = 10 ^ lcastPrecision then (10 ^ (lcastPrecision - 1), e + 1) else (n, e)

/-- Removal of the trailing zeros of a digit string. -/
def stripTrailingZeros (digits : QString) : QString :=
  (digits.reverse.dropWhile (fun c => c = '0')).reverse

/-- The conversion `boost::lexical_cast<std::string, long double>`.  Boost
writes the value with the `printf` format `%.21Lg` (the general format with
`lcastPrecision` significant digits): the value is rounded to 21 significant
digits and trailing zeros are removed; with `e` the decimal exponent, fixed
notation is used when `-4 ≤ e < 21` and scientific notation (`d.ddde-XX`, the
exponent with at least two digits) otherwise. -/
def lexical_cast (q : ℚ) : QString :=
  if q = 0 then ['0']
  else
    let ne := significantDigits q
    let e := ne.2
    let digits := stripTrailingZeros (Nat.toDigits 10 ne.1)
    let sign : QString := if q < 0 then ['-'] else []
    if e < -4 ∨ (lcastPrecision : Int) ≤ e then
      let mantissa := digits.take 1 ++ (if 1 < digits.length then '.' :: digits.drop 1 else [])
      let expDigits := Nat.toDigits 10 e.natAbs
      sign ++ mantissa ++ ['e', if e < 0 then '-' else '+']
        ++ (if expDigits.length < 2 then '0' :: expDigits else expDigits)
    else if 0 ≤ e then
      let intLen := e.toNat + 1
      let intPart := digits.take intLen ++ List.replicate (intLen - digits.length) '0'
      let fracPart := digits.drop intLen
      sign ++ intPart ++ (if fracPart = [] then [] else '.' :: fracPart)
    else
      sign ++ ['0', '.'] ++ List.replicate (e.natAbs - 1) '0' ++ digits

/-- The exponent part of a number read by `toDouble`: `rest` is what follows
the mantissa `m`. -/
def toDoubleExponent (m : ℚ) (rest : QString) : ℚ :=
  match rest with
  | [] => m
  | c :: r =>
    if c = 'e' ∨ c = 'E' then
      match r with
      | '-' :: t =>
        if t ≠ [] ∧ t.all Char.isDigit then m / ((10 ^ natOfDigits t : ℕ) : ℚ) else 0
      | '+' :: t =>
        if t ≠ [] ∧ t.all Char.isDigit then m * ((10 ^ natOfDigits t : ℕ) : ℚ) else 0
      | t =>
        if t ≠ [] ∧ t.all Char.isDigit then m * ((10 ^ natOfDigits t : ℕ) : ℚ) else 0
    else 0

/-- The conversion `QString::toDouble` on an unsigned string: the exact value of
a decimal number `digits[.digits][e[+|-]digits]`, and 0 (failed conversion)
for any other string.  `Machine.toDouble` rounds this value to the nearest
`double`. -/
def toDouble (s : QString) : ℚ :=
  let intPart := s.takeWhile Char.isDigit
  let afterInt := s.dropWhile Char.isDigit
  let fracPart := match afterInt with
    | '.' :: r => r.takeWhile Char.isDigit
    | _ => []
  let rest := match afterInt with
    | '.' :: r => r.dropWhile Char.isDigit
    | _ => afterInt
  if intPart = [] ∧ fracPart = [] then 0
  else
    toDoubleExponent
      ((natOfDigits (intPart ++ fracPart) : ℚ) / ((10 ^ fracPart.length : ℕ) : ℚ)) rest

/-- Modelled from the spec: `BitcoinUnits::parse(BitcoinUnits::BTC, value, &result)`,
whose source (bitcoinunits.cpp) is not part of the sources at hand.  The spec
(4.2.2, 4.4 `fromDecimalString`) has it validate that the string is a
well-formed non-negative fixed-point amount with at most 8 fractional digits
and a value strictly between 0 and 1, and return the count of 1e-8 units;
`none` is the return value `false`. -/
def BitcoinUnits.parse (value : QString) : Option Int :=
  let whole := value.takeWhile (fun c => c ≠ '.')
  let decimals := (value.dropWhile (fun c => c ≠ '.')).drop 1
  if whole ≠ [] ∧ whole.all Char.isDigit ∧ decimals.all Char.isDigit ∧ decimals.length ≤ 8 then
    let units := natOfDigits (whole ++ decimals ++ List.replicate (8 - decimals.length) '0')
    if 0 < units ∧ units < 100000000 then some (units : Int) else none
  else none

/-- Modelled from the spec: `BitcoinUnits::format(BitcoinUnits::BTC, chunk).toDouble()`,
whose source (bitcoinunits.cpp) is not part of the sources at hand.  The spec
(4.4 `toReal`) has it interpret an integer count of 1e-8 units as a real number
by dividing by 1e8. -/
def toReal (amount : Int) : ℚ := (amount : ℚ) / 100000000

/-- The substring `s.mid(position, n)`. -/
def mid (s : QString) (position n : Nat) : QString := (s.drop position).take n

/-! ### The encoder -/

/-- The arithmetic coding loop of `tryEncode` (lines 125-134): narrows
`(low, high)` by the range of each character of the text in turn.  The
arithmetic is exact; `Machine.forwardStep` is the same loop with the rounding
of `long double`. -/
def forwardStep : QString → ℚ × ℚ → ℚ × ℚ
  | [], lowHigh => lowHigh
  | c :: text, (low, high) =>
    let range := high - low
    let previousLow := low
    forwardStep text
      (previousLow + range * (QMap.value characterRanges c).1,
       previousLow + range * (QMap.value characterRanges c).2)

/-- The inner loop of `tryEncode` (lines 169-182) over the remaining characters
of `lowString`: copies 9s, increments the first digit that is not a 9 and
stops. -/
def incrementDigits : QString → QString → QString
  | [], output => output
  | c :: lowRest, output =>
    if toInt c = 9 then incrementDigits lowRest (output ++ [c])
    else output ++ number (toInt c + 1)

/-- The digit loop of `tryEncode` (lines 153-191).  The index `i` of the source
runs from 2 while it is inside both strings, so the loop walks
`lowString.mid(2)` and `highString.mid(2)` in step; these are the first two
arguments. -/
def digitSearch (high : ℚ) : QString → QString → QString → QString
  | l :: lowRest, h :: highRest, output =>
    if l = h then digitSearch high lowRest highRest (output ++ [l])
    else if toDouble (output ++ [h]) = high then incrementDigits lowRest (output ++ [l])
    else output ++ [h]
  | _, _, output => output

/-- The string `output` that `tryEncode` hands to `BitcoinUnits::parse`. -/
def tryEncodeOutput (text : QString) : QString :=
  let lowHigh := forwardStep text (0, 1)
  let lowString := lexical_cast lowHigh.1
  let highString := lexical_cast lowHigh.2
  digitSearch lowHigh.2 (lowString.drop 2) (highString.drop 2) ['0', '.']

/-- The function `tryEncode`: `some result` when it returns `true` and stores
`result`, `none` when it returns `false`. -/
def tryEncode (text : QString) : Option Int :=
  BitcoinUnits.parse (tryEncodeOutput text)

/-- The `while` loop of `encode` (lines 24-33) at cursor `i`, entered with the
given `chunkLength`: the accepted chunk length and its code word, or `none`
when `chunkLength` reaches 0. -/
def encodeChunk (message : QString) (i : Nat) : Nat → Option (Nat × Int)
  | 0 => none
  | chunkLength + 1 =>
    match tryEncode (mid message i (chunkLength + 1) ++ [terminator]) with
    | some encodedChunk => some (chunkLength + 1, encodedChunk)
    | none => encodeChunk message i chunkLength

/-- The `for` loop of `encode` (lines 22-43) from cursor `i` with the code words
collected so far; the first argument is fuel. -/
def encodeLoop : Nat → QString → Nat → List Int → Option (List Int)
  | 0, _, _, _ => none
  | fuel + 1, message, i, result =>
    if i < message.length then
      match encodeChunk message i maxSymbolsPerCodeWord with
      | none => some []
      | some (chunkLength, encodedChunk) =>
        encodeLoop fuel message (i + chunkLength) (result ++ [encodedChunk])
    else some result

/-- The function `encode`. -/
def encode (message : QString) : List Int :=
  (encodeLoop (message.length + 1) message 0 []).getD []

/-! ### The decoder -/

/-- The `foreach` loop of `decodeChunk` (lines 209-218) over the keys of the
range table: the state is `(symbol, low, high)`, left at the first key whose
range contains the value, and at the last key when there is none. -/
def findSymbol (value : ℚ) : List Char → Char × ℚ × ℚ → Char × ℚ × ℚ
  | [], state => state
  | symbol :: keys, _ =>
    let low := (QMap.value characterRanges symbol).1
    let high := (QMap.value characterRanges symbol).2
    if low ≤ value ∧ value < high then (symbol, low, high)
    else findSymbol value keys (symbol, low, high)

/-- The `while (true)` loop of `decodeChunk` (lines 203-236); the first argument
is fuel. -/
def decodeChunkLoop : Nat → ℚ → QString → Option QString
  | 0, _, _ => none
  | fuel + 1, value, decodedMessage =>
    let found := findSymbol value (QMap.keys characterRanges) (default, 0, 0)
    let symbol := found.1
    let low := found.2.1
    let high := found.2.2
    if symbol = terminator then some decodedMessage
    else if maxSymbolsPerCodeWord < (decodedMessage ++ [symbol]).length then some []
    else decodeChunkLoop fuel ((value - low) / (high - low)) (decodedMessage ++ [symbol])

/-- The function `decodeChunk`. -/
def decodeChunk (value : ℚ) : QString :=
  (decodeChunkLoop (maxSymbolsPerCodeWord + 1) value []).getD []

/-- The function `decode`: appends the decoding of each chunk to the message. -/
def decode (encodedMessage : List Int) : QString :=
  encodedMessage.foldl (fun message chunk => message ++ decodeChunk (toReal chunk)) []

/-! ### The coder in the arithmetic of the machine

The definitions above compute with exact rationals.  The definitions of this
section repeat the range table and `tryEncode` with the rounding of the
source's number types on x86-64: `double` is the IEEE binary64 format
(significand of 53 bits), `long double` is the x87 extended format
(significand of 64 bits), and every operation rounds its exact result to the
nearest number of the format, ties to even.  The exponent range of the formats
is not modelled; the values of the coder lie far inside it. -/

/-- Search for the least `j`, starting from the given one, with
`den ≤ num * 2 ^ j`; the first argument bounds the search. -/
def binaryExponentBelow (num den : Nat) : Nat → Nat → Nat
  | 0, j => j
  | fuel + 1, j => if den ≤ num * 2 ^ j then j else binaryExponentBelow num den fuel (j + 1)

/-- Search for the greatest `k`, starting from the given one, with
`den * 2 ^ k ≤ num`; the first argument bounds the search. -/
def binaryExponentAbove (num den : Nat) : Nat → Nat → Nat
  | 0, k => k
  | fuel + 1, k => if num < den * 2 ^ (k + 1) then k else binaryExponentAbove num den fuel (k + 1)

/-- Floor of the binary logarithm of a nonzero rational `q`: the integer `k`
with `2 ^ k ≤ |q| < 2 ^ (k + 1)`. -/
def binaryExponent (q : ℚ) : Int :=
  let n := q.num.natAbs
  let d := q.den
  if d ≤ n then (binaryExponentAbove n d n 0 : Int)
  else - (binaryExponentBelow n d d 1 : Int)

/-- Rounding of a rational to the nearest binary floating-point number with a
significand of `p` bits, ties to even. -/
def roundSignificand (p : Nat) (q : ℚ) : ℚ :=
  if q = 0 then 0
  else
    let shift : Int := (p : Int) - 1 - binaryExponent q
    let m := roundHalfEven (q.num.natAbs * 2 ^ shift.toNat) (q.den * 2 ^ (- shift).toNat)
    let r : ℚ := ((m * 2 ^ (- shift).toNat : ℕ) : ℚ) / ((2 ^ shift.toNat : ℕ) : ℚ)
    if q < 0 then - r else r

/-- Rounding to a `double` (binary64). -/
def toBinary64 (q : ℚ) : ℚ := roundSignificand 53 q

/-- Rounding to a `long double` (x87 extended, 64-bit significand). -/
def toLongDouble (q : ℚ) : ℚ := roundSignificand 64 q

namespace Machine

/-- The function `createFrequencyMap`, each literal being the nearest
`double`. -/
def createFrequencyMap : List (Char × ℚ) :=
  CMessageCoder.createFrequencyMap.map (fun e => (e.1, toBinary64 e.2))

/-- The loop of `createCharacterRanges`, the sum `i.second + low` being a
`double` addition. -/
def createCharacterRangesLoop : List (Char × ℚ) → ℚ → QMap → QMap
  | [], _, results => results
  | i :: frequencies, low, results =>
    let high := toBinary64 (i.2 + low)
    createCharacterRangesLoop frequencies high (QMap.insert results i.1 (low, high))

/-- The function `createCharacterRanges`, in `double` arithmetic. -/
def createCharacterRanges : QMap :=
  createCharacterRangesLoop createFrequencyMap 0 []

/-- The member `characterRanges`, in `double` arithmetic. -/
def characterRanges : QMap := createCharacterRanges

/-- The arithmetic coding loop of `tryEncode` (lines 125-134) in `long double`
arithmetic: the difference, each product and each sum are rounded; the
`double` bounds of the range table convert to `long double` without change. -/
def forwardStep : QString → ℚ × ℚ → ℚ × ℚ
  | [], lowHigh => lowHigh
  | c :: text, (low, high) =>
    let range := toLongDouble (high - low)
    let previousLow := low
    forwardStep text
      (toLongDouble (previousLow + toLongDouble (range * (QMap.value characterRanges c).1)),
       toLongDouble (previousLow + toLongDouble (range * (QMap.value characterRanges c).2)))

/-- The conversion `QString::toDouble`: the `double` nearest to the decimal
value of the string. -/
def toDouble (s : QString) : ℚ := toBinary64 (CMessageCoder.toDouble s)

/-- The digit loop of `tryEncode` (lines 153-191), the comparison with `high`
being made on the `double` that `toDouble` returns. -/
def digitSearch (high : ℚ) : QString → QString → QString → QString
  | l :: lowRest, h :: highRest, output =>
    if l = h then digitSearch high lowRest highRest (output ++ [l])
    else if toDouble (output ++ [h]) = high then incrementDigits lowRest (output ++ [l])
    else output ++ [h]
  | _, _, output => output

/-- The string `output` that `tryEncode` hands to `BitcoinUnits::parse`, in the
arithmetic of the machine. -/
def tryEncodeOutput (text : QString) : QString :=
  let lowHigh := forwardStep text (0, 1)
  let lowString := lexical_cast lowHigh.1
  let highString := lexical_cast lowHigh.2
  digitSearch lowHigh.2 (lowString.drop 2) (highString.drop 2) ['0', '.']

/-- The function `tryEncode`, in the arithmetic of the machine. -/
def tryEncode (text : QString) : Option Int :=
  BitcoinUnits.parse (tryEncodeOutput text)

end Machine

/-! ### Vocabulary of the statements -/

/-- The symbols a user can enter: the lowercase letters and the space. -/
def userSymbols : List Char :=
  ['a', 'b', 'c', 'd', 'e', 'f', 'g', 'h', 'i', 'j', 'k', 'l', 'm', 'n', 'o', 'p', 'q', 'r',
   's', 't', 'u', 'v', 'w', 'x', 'y', 'z', ' ']

/-- The symbols that the first `n` passes of the loop of `decodeChunk` find for
a value, when the loop is not stopped: each pass looks the value up and
rescales it by the range found. -/
def symbolTrace : Nat → ℚ → List Char
  | 0, _ => []
  | n + 1, value =>
    let found := findSymbol value (QMap.keys characterRanges) (default, 0, 0)
    found.1 :: symbolTrace n ((value - found.2.1) / (found.2.2 - found.2.1))

/-- The states `(i, result)` that the `for` loop of `encode` passes through at
the head of an iteration: the initial state, and the state after each chunk
that was accepted. -/
inductive Reaches (message : QString) : Nat → List Int → Prop
  | start : Reaches message 0 []
  | step {i : Nat} {result : List Int} {chunkLength : Nat} {encodedChunk : Int} :
      Reaches message i result → i < message.length →
      encodeChunk message i maxSymbolsPerCodeWord = some (chunkLength, encodedChunk) →
      Reaches message (i + chunkLength) (result ++ [encodedChunk])

theorem parse_range {value : QString} {c : Int} (h : BitcoinUnits.parse value = some c) :
    0 < c ∧ c < 100000000 := by
  unfold BitcoinUnits.parse at h
  simp only at h
  split at h
  · split at h
    · rename_i hu
      simp only [Option.some.injEq] at h
      subst h
      constructor
      · exact_mod_cast hu.1
      · exact_mod_cast hu.2
    · exact absurd h (by simp)
  · exact absurd h (by simp)

theorem tryEncode_range {text : QString} {c : Int} (h : tryEncode text = some c) :
    0 < c ∧ c < 100000000 :=
  parse_range h

theorem encodeChunk_some {message : QString} {i n k : Nat} {c : Int}
    (h : encodeChunk message i n = some (k, c)) :
    1 ≤ k ∧ k ≤ n ∧ tryEncode (mid message i k ++ [terminator]) = some c := by
  induction n with
  | zero => simp [encodeChunk] at h
  | succ n ih =>
    unfold encodeChunk at h
    split at h
    · rename_i e he
      simp only [Option.some.injEq, Prod.mk.injEq] at h
      obtain ⟨h1, h2⟩ := h
      subst h1 h2
      exact ⟨Nat.succ_le_succ (Nat.zero_le _), le_refl _, he⟩
    · obtain ⟨h1, h2, h3⟩ := ih h
      exact ⟨h1, Nat.le_succ_of_le h2, h3⟩

theorem encodeChunk_of_single {message : QString} {i : Nat}
    (h : tryEncode (mid message i 1 ++ [terminator]) ≠ none) (n : Nat) :
    encodeChunk message i (n + 1) ≠ none := by
  induction n with
  | zero =>
    unfold encodeChunk
    split
    · simp
    · rename_i he
      exact absurd he h
  | succ n ih =>
    unfold encodeChunk
    split
    · simp
    · exact ih

theorem encodeLoop_isSome (fuel : Nat) (message : QString) (i : Nat) (result : List Int)
    (h0 : 0 < fuel) (h : message.length + 1 ≤ fuel + i) :
    (encodeLoop fuel message i result).isSome = true := by
  induction fuel generalizing i result with
  | zero => omega
  | succ fuel ih =>
    unfold encodeLoop
    split
    · split
      · rfl
      · rename_i k c he
        have hk := (encodeChunk_some he).1
        exact ih _ _ (by omega) (by omega)
    · rfl

theorem encodeLoop_mem (fuel : Nat) (message : QString) (i : Nat) (result r : List Int)
    (h : encodeLoop fuel message i result = some r) (c : Int) (hc : c ∈ r) :
    c ∈ result ∨ ∃ text, tryEncode text = some c := by
  induction fuel generalizing i result with
  | zero => simp [encodeLoop] at h
  | succ fuel ih =>
    unfold encodeLoop at h
    split at h
    · split at h
      · simp only [Option.some.injEq] at h
        subst h
        simp at hc
      · rename_i k e he
        rcases ih _ _ h with h1 | h1
        · rcases List.mem_append.1 h1 with h2 | h2
          · exact Or.inl h2
          · simp only [List.mem_singleton] at h2
            subst h2
            exact Or.inr ⟨_, (encodeChunk_some he).2.2⟩
        · exact Or.inr h1
    · simp only [Option.some.injEq] at h
      subst h
      exact Or.inl hc

theorem decodeChunkLoop_isSome (fuel : Nat) (value : ℚ) (decodedMessage : QString)
    (h1 : decodedMessage.length ≤ maxSymbolsPerCodeWord)
    (h2 : maxSymbolsPerCodeWord + 1 ≤ decodedMessage.length + fuel) :
    (decodeChunkLoop fuel value decodedMessage).isSome = true := by
  induction fuel generalizing value decodedMessage with
  | zero => omega
  | succ fuel ih =>
    unfold decodeChunkLoop
    simp only
    split
    · rfl
    · split
      · rfl
      · rename_i hlen
        apply ih
        · omega
        · simp only [List.length_append, List.length_singleton] at hlen ⊢
          omega

theorem decodeChunk_fuel_suffices (value : ℚ) :
    decodeChunkLoop (maxSymbolsPerCodeWord + 1) value [] = some (decodeChunk value) := by
  have h := decodeChunkLoop_isSome (maxSymbolsPerCodeWord + 1) value []
    (Nat.zero_le _) (by simp)
  unfold decodeChunk
  cases hl : decodeChunkLoop (maxSymbolsPerCodeWord + 1) value [] with
  | none => rw [hl] at h; simp at h
  | some r => rfl

theorem encode_fuel_suffices (message : QString) :
    encodeLoop (message.length + 1) message 0 [] = some (encode message) := by
  have h := encodeLoop_isSome (message.length + 1) message 0 [] (by omega) (by omega)
  unfold encode
  cases hl : encodeLoop (message.length + 1) message 0 [] with
  | none => rw [hl] at h; simp at h
  | some r => rfl

theorem decode_foldl (l : List Int) (acc : QString) :
    l.foldl (fun message chunk => message ++ decodeChunk (toReal chunk)) acc
      = acc ++ decode l := by
  induction l generalizing acc with
  | nil => simp [decode]
  | cons a l ih =>
    simp only [decode, List.foldl_cons, List.nil_append]
    rw [ih, ih (decodeChunk (toReal a)), List.append_assoc]

theorem decode_cons (c : Int) (l : List Int) :
    decode (c :: l) = decodeChunk (toReal c) ++ decode l := by
  simp only [decode, List.foldl_cons, List.nil_append]
  exact decode_foldl l _

theorem decode_append (xs ys : List Int) : decode (xs ++ ys) = decode xs ++ decode ys := by
  induction xs with
  | nil => simp [decode]
  | cons a xs ih => rw [List.cons_append, decode_cons, decode_cons, ih, List.append_assoc]

theorem mid_one {message : QString} {i : Nat} (h : i < message.length) :
    ∃ c ∈ message, mid message i 1 = [c] := by
  refine ⟨message[i], List.getElem_mem _, ?_⟩
  unfold mid
  rw [List.drop_eq_getElem_cons h]
  rfl

theorem encodeLoop_length (fuel : Nat) (message : QString) (i : Nat) (result : List Int)
    (hall : ∀ j, j < message.length → encodeChunk message j maxSymbolsPerCodeWord ≠ none)
    (h0 : 0 < fuel) (h : message.length + 1 ≤ fuel + i) :
    ∃ r, encodeLoop fuel message i result = some r ∧ result.length ≤ r.length ∧
      (i < message.length → result.length < r.length) := by
  induction fuel generalizing i result with
  | zero => omega
  | succ fuel ih =>
    unfold encodeLoop
    split
    · rename_i hi
      split
      · rename_i he
        exact absurd he (hall i hi)
      · rename_i k c he
        have hk := (encodeChunk_some he).1
        obtain ⟨r, hr, hlen, _⟩ := ih (i + k) (result ++ [c]) (by omega) (by omega)
        refine ⟨r, hr, ?_, fun _ => ?_⟩ <;>
          simp only [List.length_append, List.length_singleton] at hlen <;> omega
    · rename_i hi
      exact ⟨result, rfl, le_refl _, fun h => absurd h hi⟩

theorem single_symbol_encodable :
    ∀ c ∈ userSymbols, (tryEncode [c, terminator]).isSome = true ∧
      (tryEncodeOutput [c, terminator]).length ≤ 10 := by
  decide!

theorem decodeChunkLoop_corrupt (fuel : Nat) (value : ℚ) (decodedMessage : QString)
    (h0 : 0 < fuel) (hlen : decodedMessage.length + fuel = maxSymbolsPerCodeWord + 1)
    (h : ∀ s ∈ symbolTrace fuel value, s ≠ terminator) :
    decodeChunkLoop fuel value decodedMessage = some [] := by
  induction fuel generalizing value decodedMessage with
  | zero => omega
  | succ fuel ih =>
    unfold decodeChunkLoop
    unfold symbolTrace at h
    simp only [List.mem_cons, forall_eq_or_imp] at h
    simp only
    rw [if_neg h.1]
    split
    · rfl
    · rename_i hshort
      simp only [List.length_append, List.length_singleton] at hshort
      apply ih
      · omega
      · simp only [List.length_append, List.length_singleton]
        omega
      · exact h.2

theorem reaches_encodeLoop {message : QString} {i : Nat} {result : List Int}
    (h : Reaches message i result) :
    ∃ n, n ≤ i ∧ ∀ fuel, encodeLoop (fuel + n) message 0 [] = encodeLoop fuel message i result := by
  induction h with
  | start => exact ⟨0, le_refl _, fun _ => rfl⟩
  | step hreach hi he ih =>
    rename_i i result k c
    obtain ⟨n, hn, hrun⟩ := ih
    refine ⟨n + 1, ?_, ?_⟩
    · have := (encodeChunk_some he).1
      omega
    · intro fuel
      have h1 := hrun (fuel + 1)
      rw [show fuel + (n + 1) = fuel + 1 + n by omega, h1]
      conv_lhs => unfold encodeLoop
      rw [if_pos hi, he]

theorem findSymbol_last (v : ℚ) (l : List Char) (k : Char) (state : Char × ℚ × ℚ)
    (h : ∀ x ∈ l,
      ¬ ((QMap.value characterRanges x).1 ≤ v ∧ v < (QMap.value characterRanges x).2)) :
    findSymbol v (l ++ [k]) state
      = (k, (QMap.value characterRanges k).1, (QMap.value characterRanges k).2) := by
  induction l generalizing state with
  | nil =>
    simp only [List.nil_append, findSymbol]
    split <;> rfl
  | cons x l ih =>
    simp only [List.cons_append, findSymbol]
    rw [if_neg (h x (by simp))]
    exact ih _ (fun y hy => h y (List.mem_cons_of_mem _ hy))

theorem ranges_within :
    ∀ x ∈ QMap.keys characterRanges,
      0 ≤ (QMap.value characterRanges x).1 ∧
        (QMap.value characterRanges x).1 < (QMap.value characterRanges x).2 ∧
        (QMap.value characterRanges x).2 ≤ 1 := by
  decide!

theorem findSymbol_out_of_range (v : ℚ) (h : v < 0 ∨ 1 ≤ v) :
    findSymbol v (QMap.keys characterRanges) (default, 0, 0) = ('z', 0.8122, 0.8125) := by
  have hkeys : QMap.keys characterRanges
      = (QMap.keys characterRanges).dropLast ++ ['z'] := by decide!
  have hz : QMap.value characterRanges 'z' = (0.8122, 0.8125) := by decide!
  rw [hkeys, findSymbol_last, hz]
  intro x hx hcontains
  have hmem : x ∈ QMap.keys characterRanges := List.mem_of_mem_dropLast hx
  obtain ⟨h0, _, h1⟩ := ranges_within x hmem
  rcases h with h | h
  · exact absurd (lt_of_le_of_lt (le_trans h0 hcontains.1) h) (lt_irrefl _)
  · exact absurd (lt_of_le_of_lt h (lt_of_lt_of_le hcontains.2 h1)) (lt_irrefl _)

theorem rescale_out_of_range (v : ℚ) (h : v < 0 ∨ 1 ≤ v) :
    (v - 0.8122) / (0.8125 - 0.8122) < 0 ∨ 1 ≤ (v - 0.8122) / (0.8125 - 0.8122) := by
  have hpos : (0 : ℚ) < 0.8125 - 0.8122 := by norm_num
  rcases h with h | h
  · left
    apply div_neg_of_neg_of_pos _ hpos
    have : (0 : ℚ) < 0.8122 := by norm_num
    linarith
  · right
    rw [one_le_div hpos]
    have : (0.8125 : ℚ) ≤ 1 := by norm_num
    linarith

theorem symbolTrace_out_of_range (n : Nat) (v : ℚ) (h : v < 0 ∨ 1 ≤ v) :
    symbolTrace n v = List.replicate n 'z' := by
  induction n generalizing v with
  | zero => rfl
  | succ n ih =>
    unfold symbolTrace
    simp only [findSymbol_out_of_range v h, List.replicate_succ]
    rw [ih _ (rescale_out_of_range v h)]

theorem ranges_below_one :
    ∀ x ∈ QMap.keys characterRanges, x ≠ terminator → (QMap.value characterRanges x).2 < 1 := by
  decide!

/-- The bounds of the forward step in exact arithmetic, the recurrence as the
spec states it (4.2.1): the interval stays inside the one it started from and
does not collapse. -/
theorem forwardStep_bounds (S : QString) (hS : ∀ c ∈ S, c ∈ QMap.keys characterRanges)
    (low high : ℚ) (h : low < high) :
    low ≤ (forwardStep S (low, high)).1 ∧
      (forwardStep S (low, high)).1 < (forwardStep S (low, high)).2 ∧
      (forwardStep S (low, high)).2 ≤ high ∧
      (S.getLast? = some terminator → low < (forwardStep S (low, high)).1) ∧
      ((∃ c ∈ S, c ≠ terminator) → (forwardStep S (low, high)).2 < high) := by
  induction S generalizing low high with
  | nil =>
    refine ⟨le_refl _, h, le_refl _, ?_, ?_⟩
    · intro hl
      simp at hl
    · rintro ⟨c, hc, _⟩
      simp at hc
  | cons c S ih =>
    have hc := hS c (by simp)
    obtain ⟨r0, r1, r2⟩ := ranges_within c hc
    have hrange : 0 < high - low := sub_pos.2 h
    have hl1 : low ≤ low + (high - low) * (QMap.value characterRanges c).1 := by
      have := mul_nonneg (le_of_lt hrange) r0
      linarith
    have hlh : low + (high - low) * (QMap.value characterRanges c).1
        < low + (high - low) * (QMap.value characterRanges c).2 := by
      have := mul_lt_mul_of_pos_left r1 hrange
      linarith
    have hh1 : low + (high - low) * (QMap.value characterRanges c).2 ≤ high := by
      have := mul_le_mul_of_nonneg_left r2 (le_of_lt hrange)
      linarith
    obtain ⟨i1, i2, i3, i4, i5⟩ := ih (fun x hx => hS x (List.mem_cons_of_mem _ hx)) _ _ hlh
    have hstep : forwardStep (c :: S) (low, high)
        = forwardStep S (low + (high - low) * (QMap.value characterRanges c).1,
            low + (high - low) * (QMap.value characterRanges c).2) := rfl
    rw [hstep]
    refine ⟨le_trans hl1 i1, i2, le_trans i3 hh1, ?_, ?_⟩
    · intro hlast
      cases S with
      | nil =>
        simp only [List.getLast?_singleton, Option.some.injEq] at hlast
        subst hlast
        have hpos : 0 < (QMap.value characterRanges terminator).1 := by decide!
        have := mul_pos hrange hpos
        show low < low + (high - low) * (QMap.value characterRanges terminator).1
        linarith
      | cons d S =>
        rw [List.getLast?_cons_cons] at hlast
        exact lt_of_le_of_lt hl1 (i4 hlast)
    · rintro ⟨x, hx, hxt⟩
      rcases List.mem_cons.1 hx with hxc | hxS
      · subst hxc
        have hlt1 := ranges_below_one x hc hxt
        have := mul_lt_mul_of_pos_left hlt1 hrange
        have hh1s : low + (high - low) * (QMap.value characterRanges x).2 < high := by linarith
        exact lt_of_le_of_lt i3 hh1s
      · exact lt_of_lt_of_le (i5 ⟨x, hxS, hxt⟩) hh1

theorem findSymbol_mem (v : ℚ) (l : List Char) (state : Char × ℚ × ℚ) (hl : l ≠ []) :
    ∃ k ∈ l, findSymbol v l state
      = (k, (QMap.value characterRanges k).1, (QMap.value characterRanges k).2) := by
  induction l generalizing state with
  | nil => exact absurd rfl hl
  | cons x l ih =>
    simp only [findSymbol]
    split
    · exact ⟨x, by simp, rfl⟩
    · by_cases hnil : l = []
      · subst hnil
        exact ⟨x, by simp, rfl⟩
      · obtain ⟨k, hk, hfind⟩ := ih _ hnil
        exact ⟨k, List.mem_cons_of_mem _ hk, hfind⟩

theorem findSymbol_width (v : ℚ) :
    (findSymbol v (QMap.keys characterRanges) (default, 0, 0)).2.1
      < (findSymbol v (QMap.keys characterRanges) (default, 0, 0)).2.2 := by
  obtain ⟨k, hk, hfind⟩ := findSymbol_mem v (QMap.keys characterRanges) (default, 0, 0)
    (by decide!)
  rw [hfind]
  exact (ranges_within k hk).2.1

theorem decodeChunkLoop_bound (fuel : Nat) (value : ℚ) (decodedMessage r : QString)
    (h : decodeChunkLoop fuel value decodedMessage = some r)
    (hlen : decodedMessage.length ≤ maxSymbolsPerCodeWord)
    (hterm : terminator ∉ decodedMessage) :
    r.length ≤ maxSymbolsPerCodeWord ∧ terminator ∉ r := by
  induction fuel generalizing value decodedMessage with
  | zero => simp [decodeChunkLoop] at h
  | succ fuel ih =>
    unfold decodeChunkLoop at h
    simp only at h
    split at h
    · simp only [Option.some.injEq] at h
      subst h
      exact ⟨hlen, hterm⟩
    · rename_i hsym
      split at h
      · simp only [Option.some.injEq] at h
        subst h
        exact ⟨Nat.zero_le _, by simp⟩
      · rename_i hshort
        refine ih _ _ h (not_lt.1 hshort) ?_
        intro hmem
        rcases List.mem_append.1 hmem with h1 | h1
        · exact hterm h1
        · simp only [List.mem_singleton] at h1
          exact hsym h1.symm

theorem decodeChunk_bound (value : ℚ) :
    (decodeChunk value).length ≤ maxSymbolsPerCodeWord ∧ terminator ∉ decodeChunk value :=
  decodeChunkLoop_bound _ _ _ _ (decodeChunk_fuel_suffices value) (Nat.zero_le _) (by simp)

theorem decode_length (l : List Int) :
    (decode l).length ≤ maxSymbolsPerCodeWord * l.length := by
  induction l with
  | nil => simp [decode]
  | cons a l ih =>
    rw [decode_cons, List.length_append, List.length_cons]
    have := (decodeChunk_bound (toReal a)).1
    rw [Nat.mul_succ]
    omega

theorem decode_no_terminator (l : List Int) : terminator ∉ decode l := by
  induction l with
  | nil => simp [decode]
  | cons a l ih =>
    rw [decode_cons]
    intro hmem
    rcases List.mem_append.1 hmem with h1 | h1
    · exact (decodeChunk_bound (toReal a)).2 h1
    · exact ih h1

theorem mid_drop (s : QString) (K i n : Nat) : mid s (K + i) n = mid (s.drop K) i n := by
  unfold mid
  rw [List.drop_drop, Nat.add_comm]

theorem mid_zero (s : QString) (n : Nat) : mid s 0 n = s.take n := rfl

theorem encodeChunk_drop (s : QString) (K i n : Nat) :
    encodeChunk s (K + i) n = encodeChunk (s.drop K) i n := by
  induction n with
  | zero => rfl
  | succ n ih => simp only [encodeChunk, mid_drop, ih]

theorem encodeLoop_drop (fuel : Nat) (s : QString) (K i : Nat) (result : List Int) :
    encodeLoop fuel s (K + i) result = encodeLoop fuel (s.drop K) i result := by
  induction fuel generalizing i result with
  | zero => rfl
  | succ fuel ih =>
    simp only [encodeLoop, encodeChunk_drop, List.length_drop]
    have hiff : K + i < s.length ↔ i < s.length - K := by omega
    by_cases hi : i < s.length - K
    · rw [if_pos (hiff.2 hi), if_pos hi]
      cases encodeChunk (s.drop K) i maxSymbolsPerCodeWord with
      | none => rfl
      | some kc =>
        obtain ⟨k, c⟩ := kc
        simp only
        rw [Nat.add_assoc]
        exact ih _ _
    · rw [if_neg (fun h => hi (hiff.1 h)), if_neg hi]

theorem encodeLoop_result (fuel : Nat) (s : QString) (i : Nat) (r0 result : List Int)
    (hall : ∀ j, j < s.length → encodeChunk s j maxSymbolsPerCodeWord ≠ none) :
    encodeLoop fuel s i (r0 ++ result) = (encodeLoop fuel s i result).map (fun r => r0 ++ r) := by
  induction fuel generalizing i result with
  | zero => rfl
  | succ fuel ih =>
    simp only [encodeLoop]
    by_cases hi : i < s.length
    · rw [if_pos hi, if_pos hi]
      cases he : encodeChunk s i maxSymbolsPerCodeWord with
      | none => exact absurd he (hall i hi)
      | some kc =>
        obtain ⟨k, c⟩ := kc
        simp only
        rw [List.append_assoc]
        exact ih _ _
    · rw [if_neg hi, if_neg hi]
      rfl

theorem encodeLoop_fuel_succ (fuel : Nat) (s : QString) (i : Nat) (result r : List Int)
    (h : encodeLoop fuel s i result = some r) : encodeLoop (fuel + 1) s i result = some r := by
  induction fuel generalizing i result with
  | zero => simp [encodeLoop] at h
  | succ fuel ih =>
    rw [encodeLoop] at h ⊢
    by_cases hi : i < s.length
    · rw [if_pos hi] at h ⊢
      cases he : encodeChunk s i maxSymbolsPerCodeWord with
      | none =>
        rw [he] at h
        exact h
      | some kc =>
        obtain ⟨k, c⟩ := kc
        rw [he] at h
        exact ih _ _ h
    · rw [if_neg hi] at h ⊢
      exact h

theorem encodeLoop_fuel_le (fuel more : Nat) (s : QString) (i : Nat) (result r : List Int)
    (h : encodeLoop fuel s i result = some r) : encodeLoop (fuel + more) s i result = some r := by
  induction more with
  | zero => exact h
  | succ more ih => exact encodeLoop_fuel_succ _ _ _ _ _ ih

theorem valid_encodeChunk (s : QString) (hs : ∀ c ∈ s, c ∈ userSymbols) :
    ∀ i, i < s.length → encodeChunk s i maxSymbolsPerCodeWord ≠ none := by
  intro i hi
  obtain ⟨c, hc, hmid⟩ := mid_one hi
  apply encodeChunk_of_single
  rw [hmid]
  have h1 := (single_symbol_encodable c (hs c hc)).1
  intro hnone
  simp only [List.singleton_append] at hnone
  rw [hnone] at h1
  simp at h1

theorem encodeChunk_maximal {s : QString} {i n K : Nat} {c : Int}
    (h : encodeChunk s i n = some (K, c)) :
    ∀ j, K < j → j ≤ n → tryEncode (mid s i j ++ [terminator]) = none := by
  induction n with
  | zero => simp [encodeChunk] at h
  | succ n ih =>
    unfold encodeChunk at h
    split at h
    · simp only [Option.some.injEq, Prod.mk.injEq] at h
      intro j hj hjn
      omega
    · rename_i he
      intro j hj hjn
      by_cases hjeq : j = n + 1
      · rw [hjeq]
        exact he
      · exact ih h j hj (by omega)

theorem encode_first_chunk (s : QString) (hne : s ≠ []) (hs : ∀ c ∈ s, c ∈ userSymbols)
    (K : Nat) (c : Int) (he : encodeChunk s 0 maxSymbolsPerCodeWord = some (K, c)) :
    encode s = c :: encode (s.drop K) := by
  have hpos : 0 < s.length := List.length_pos.2 hne
  have hK := (encodeChunk_some he).1
  have hall : ∀ j, j < (s.drop K).length →
      encodeChunk (s.drop K) j maxSymbolsPerCodeWord ≠ none :=
    valid_encodeChunk _ (fun x hx => hs x (List.mem_of_mem_drop hx))
  have hrest := encode_fuel_suffices (s.drop K)
  have hfuel : s.length = (s.drop K).length + 1 + (s.length - ((s.drop K).length + 1)) := by
    rw [List.length_drop]
    omega
  have hrest2 := encodeLoop_fuel_le _ (s.length - ((s.drop K).length + 1)) _ _ _ _ hrest
  rw [← hfuel] at hrest2
  unfold encode
  rw [encodeLoop, if_pos hpos, he]
  simp only
  have hshift := encodeLoop_drop s.length s K 0 ([] ++ [c])
  rw [Nat.add_zero] at hshift
  rw [Nat.zero_add, hshift]
  have hres := encodeLoop_result s.length (s.drop K) 0 [c] [] hall
  rw [List.nil_append]
  rw [List.append_nil] at hres
  rw [hres, hrest2]
  rfl

/-! ### The claims -/

/-- C1 (round trip), evaluated at the message `aaaa`: the interval of the chunk
lies below 0.0001, so `lexical_cast` renders both bounds in scientific
notation (`1.285017474376062e-05` and `1.37552716161e-05`); the digit loop
reads the mantissa digits as if they were fractional digits and produces 0.3,
which is accepted as the code word 30000000.  Decoding it does not give back
`aaaa` (the first symbol found for 0.3 is `h`, and the chunk ends up empty).
In the same way the message `aaahh` is encoded as 0.433 and decoded as `nd`
followed by two spaces.  The message of 20 copies of `e` does round-trip. -/
theorem roundTrip_aaaa :
    lexical_cast (forwardStep ['a', 'a', 'a', 'a', terminator] (0, 1)).1
        = "1.285017474376062e-05".toList ∧
      lexical_cast (forwardStep ['a', 'a', 'a', 'a', terminator] (0, 1)).2
        = "1.37552716161e-05".toList ∧
      encode ['a', 'a', 'a', 'a'] = [30000000] ∧
      symbolTrace 1 (toReal 30000000) = ['h'] ∧
      decode (encode ['a', 'a', 'a', 'a']) = [] ∧
      decode (encode ['a', 'a', 'a', 'a']) ≠ ['a', 'a', 'a', 'a'] ∧
      encode "aaahh".toList = [43300000] ∧
      decode (encode "aaahh".toList) = "nd  ".toList ∧
      decode (encode (List.replicate 20 'e')) = List.replicate 20 'e' := by
  decide!

/-- C2 (codeword range): every code word `c` of `encode s`, for any message
`s`, is a count of 1e-8 units with `0 < c < 100000000`; its real value lies
strictly between 0 and 1 and has at most 8 fractional digits. -/
theorem encode_codeword_range (s : QString) (c : Int) (h : c ∈ encode s) :
    (0 < c ∧ c < 100000000) ∧ (0 < toReal c ∧ toReal c < 1) ∧
      toReal c * 100000000 = (c : ℚ) := by
  have hr : 0 < c ∧ c < 100000000 := by
    unfold encode at h
    cases hl : encodeLoop (s.length + 1) s 0 [] with
    | none => rw [hl] at h; simp at h
    | some r =>
      rw [hl] at h
      simp only [Option.getD_some] at h
      rcases encodeLoop_mem _ _ _ _ _ hl c h with h1 | ⟨text, h1⟩
      · simp at h1
      · exact tryEncode_range h1
  refine ⟨hr, ⟨?_, ?_⟩, ?_⟩
  · unfold toReal
    have : (0 : ℚ) < (c : ℚ) := by exact_mod_cast hr.1
    positivity
  · unfold toReal
    have : (c : ℚ) < 100000000 := by exact_mod_cast hr.2
    rw [div_lt_one (by norm_num)]
    exact this
  · unfold toReal
    field_simp

theorem encode_codeword_range_witness :
    (6000000 : Int) ∈ encode ['a'] ∧
      ((0 < (6000000 : Int) ∧ (6000000 : Int) < 100000000) ∧
        (0 < toReal 6000000 ∧ toReal 6000000 < 1) ∧
        toReal 6000000 * 100000000 = ((6000000 : Int) : ℚ)) :=
  ⟨by decide!, encode_codeword_range ['a'] 6000000 (by decide!)⟩

/-- C3 (encode never fails on valid input): for every non-empty message over
the letters and the space, `encode` returns a non-empty sequence and the chunk
length never reaches 0 at any cursor, because for every single user symbol `c`
the text `c` + terminator is accepted by `tryEncode`, with an output of at most
8 fractional digits. -/
theorem encode_never_fails (s : QString) (hne : s ≠ []) (hs : ∀ c ∈ s, c ∈ userSymbols) :
    encode s ≠ [] ∧
      (∀ i, i < s.length → encodeChunk s i maxSymbolsPerCodeWord ≠ none) ∧
      (∀ c ∈ userSymbols, (∃ r, tryEncode [c, terminator] = some r) ∧
        (tryEncodeOutput [c, terminator]).length ≤ "0.".length + 8) := by
  have hsingle : ∀ c ∈ userSymbols, (∃ r, tryEncode [c, terminator] = some r) ∧
      (tryEncodeOutput [c, terminator]).length ≤ "0.".length + 8 := by
    intro c hc
    obtain ⟨h1, h2⟩ := single_symbol_encodable c hc
    exact ⟨Option.isSome_iff_exists.1 h1, h2⟩
  have hall : ∀ i, i < s.length → encodeChunk s i maxSymbolsPerCodeWord ≠ none := by
    intro i hi
    obtain ⟨c, hc, hmid⟩ := mid_one hi
    apply encodeChunk_of_single
    rw [hmid]
    obtain ⟨r, hr⟩ := (hsingle c (hs c hc)).1
    simp only [List.singleton_append]
    rw [hr]
    simp
  refine ⟨?_, hall, hsingle⟩
  have hpos : 0 < s.length := List.length_pos.2 hne
  obtain ⟨r, hr, _, hlt⟩ := encodeLoop_length (s.length + 1) s 0 [] hall (by omega) (by omega)
  unfold encode
  rw [hr]
  simp only [Option.getD_some]
  intro hnil
  have := hlt hpos
  rw [hnil] at this
  simp at this

theorem encode_never_fails_witness :
    (['h', 'i'] : QString) ≠ [] ∧ (∀ c ∈ (['h', 'i'] : QString), c ∈ userSymbols) ∧
      encode ['h', 'i'] ≠ [] :=
  ⟨by decide, by decide, (encode_never_fails ['h', 'i'] (by decide) (by decide)).1⟩

/-- C7 (empty input): `encode` of the empty message is the empty sequence and
`decode` of the empty sequence is the empty string. -/
theorem empty_input : encode [] = [] ∧ decode [] = [] := by
  decide!

/-- C8 (concrete scenario): `encode` of the message `a` is exactly the sequence
`[6000000]`, the digit search on the interval of `a` + terminator yielding the
string `0.06`; and `decode [6000000]` is `a`: the value 0.06 lies in the range
`[0, 0.0609)` of `a`, and rescaled by it lies in the range `[0.9342, 1)` of the
terminator. -/
theorem concrete_scenario :
    encode ['a'] = [6000000] ∧
      tryEncodeOutput ['a', terminator] = "0.06".toList ∧
      decode [6000000] = ['a'] ∧
      toReal 6000000 = 0.06 ∧
      QMap.value characterRanges 'a' = (0, 0.0609) ∧
      QMap.value characterRanges terminator = (0.9342, 1) ∧
      (0 ≤ toReal 6000000 ∧ toReal 6000000 < 0.0609) ∧
      (0.9342 ≤ (toReal 6000000 - 0) / (0.0609 - 0) ∧
        (toReal 6000000 - 0) / (0.0609 - 0) < 1) ∧
      symbolTrace 2 (toReal 6000000) = ['a', terminator] := by
  decide!

/-- C5 (corrupt codeword tolerance): if the first 8 symbols that decoding the
code word `c` finds are all different from the terminator, then `c` decodes to
the empty string and the other code words are unaffected:
`decode (xs ++ [c] ++ ys) = decode xs ++ decode ys` for all `xs`, `ys`. -/
theorem corrupt_codeword_tolerance (c : Int)
    (h : ∀ s ∈ symbolTrace (maxSymbolsPerCodeWord + 1) (toReal c), s ≠ terminator) :
    decodeChunk (toReal c) = [] ∧
      ∀ xs ys : List Int, decode (xs ++ [c] ++ ys) = decode xs ++ decode ys := by
  have hc : decodeChunk (toReal c) = [] := by
    unfold decodeChunk
    rw [decodeChunkLoop_corrupt _ _ _ (by decide) (by simp) h]
    rfl
  refine ⟨hc, fun xs ys => ?_⟩
  rw [decode_append, decode_append, decode_cons, hc]
  simp [decode]

theorem corrupt_codeword_tolerance_witness :
    (∀ s ∈ symbolTrace (maxSymbolsPerCodeWord + 1) (toReal 0), s ≠ terminator) ∧
      decodeChunk (toReal 0) = [] ∧
      decode ([] ++ [0] ++ [6000000]) = decode [] ++ decode [6000000] ∧
      decode [0, 6000000] = ['a'] :=
  ⟨by decide!, (corrupt_codeword_tolerance 0 (by decide!)).1,
    (corrupt_codeword_tolerance 0 (by decide!)).2 [] [6000000], by decide!⟩

/-- C6 (encode failure is all-or-nothing): if at a cursor position that the
loop of `encode` reaches, with code words `result` already produced, no chunk
length from 7 down to 1 yields a code word, then `encode` returns the empty
sequence: the code words in `result` are discarded. -/
theorem encode_all_or_nothing (message : QString) (i : Nat) (result : List Int)
    (hreach : Reaches message i result) (hi : i < message.length)
    (hfail : encodeChunk message i maxSymbolsPerCodeWord = none) :
    encode message = [] := by
  obtain ⟨n, hn, hrun⟩ := reaches_encodeLoop hreach
  unfold encode
  have hstart := hrun (message.length + 1 - n)
  rw [show message.length + 1 - n + n = message.length + 1 by omega] at hstart
  rw [hstart]
  obtain ⟨f, hf⟩ : ∃ f, message.length + 1 - n = f + 1 := ⟨message.length - n, by omega⟩
  rw [hf]
  unfold encodeLoop
  rw [if_pos hi, hfail]
  rfl

theorem encode_all_or_nothing_witness :
    Reaches ['a', '?'] 1 [6000000] ∧ 1 < (['a', '?'] : QString).length ∧
      encodeChunk ['a', '?'] 1 maxSymbolsPerCodeWord = none ∧
      encodeChunk ['a', '?'] 0 maxSymbolsPerCodeWord = some (1, 6000000) ∧
      encode ['a', '?'] = [] :=
  have hreach : Reaches ['a', '?'] 1 [6000000] :=
    Reaches.step Reaches.start (by decide)
      (show encodeChunk ['a', '?'] 0 maxSymbolsPerCodeWord = some (1, 6000000) by decide!)
  ⟨hreach, by decide, by decide!, by decide!,
    encode_all_or_nothing ['a', '?'] 1 [6000000] hreach (by decide) (by decide!)⟩

/-- C9 (shortest representative), evaluated at the chunk `dxpz`, the first
attempt of `encode` on the message `dxpz`.  The upper bound of `dxpz` +
terminator is 0.12310554857, and in the arithmetic of the machine the
`long double` bound equals the `double` that `toDouble` returns for
`0.12310554857`; so the digit search, after copying `1231055485`, finds that
the digit 7 of `high` would give `high` itself, takes the digit 4 of `low` and
increments the next digit: its output is `0.123105548544`, with 12 fractional
digits, in exact arithmetic and in the arithmetic of the machine alike.  The
value 0.12310554855, with 11 fractional digits, lies in the interval as
well. -/
theorem shortest_representative_dxpz :
    mid "dxpz".toList 0 maxSymbolsPerCodeWord ++ [terminator] = "dxpz.".toList ∧
      (forwardStep "dxpz.".toList (0, 1) = (0.1231055485430241056, 0.12310554857) ∧
        tryEncodeOutput "dxpz.".toList = "0.123105548544".toList ∧
        ((forwardStep "dxpz.".toList (0, 1)).1 ≤ 0.123105548544 ∧
          (0.123105548544 : ℚ) < (forwardStep "dxpz.".toList (0, 1)).2) ∧
        ((forwardStep "dxpz.".toList (0, 1)).1 ≤ 0.12310554855 ∧
          (0.12310554855 : ℚ) < (forwardStep "dxpz.".toList (0, 1)).2)) ∧
      (lexical_cast (Machine.forwardStep "dxpz.".toList (0, 1)).1
          = "0.123105548543024106332".toList ∧
        lexical_cast (Machine.forwardStep "dxpz.".toList (0, 1)).2
          = "0.12310554857000000073".toList ∧
        Machine.toDouble "0.12310554857".toList = (Machine.forwardStep "dxpz.".toList (0, 1)).2 ∧
        Machine.tryEncodeOutput "dxpz.".toList = "0.123105548544".toList ∧
        ((Machine.forwardStep "dxpz.".toList (0, 1)).1 ≤ 0.123105548544 ∧
          (0.123105548544 : ℚ) < (Machine.forwardStep "dxpz.".toList (0, 1)).2) ∧
        ((Machine.forwardStep "dxpz.".toList (0, 1)).1 ≤ 0.12310554855 ∧
          (0.12310554855 : ℚ) < (Machine.forwardStep "dxpz.".toList (0, 1)).2)) ∧
      "0.12310554855".toList.length < "0.123105548544".toList.length := by
  decide!

/-- C10 (representative lies in the interval), evaluated at the text `aaaa` +
terminator: both bounds of the interval are below 0.0001 and are rendered in
scientific notation, the digit search compares the mantissa digits 2 and 3 and
outputs `0.3`, which is accepted as a code word although it lies far above the
interval `[0.00001285..., 0.0000137552716161)`. -/
theorem representative_outside_interval :
    (forwardStep ['a', 'a', 'a', 'a', terminator] (0, 1)).2 = 0.0000137552716161 ∧
      tryEncodeOutput ['a', 'a', 'a', 'a', terminator] = "0.3".toList ∧
      tryEncode ['a', 'a', 'a', 'a', terminator] = some 30000000 ∧
      toDouble (tryEncodeOutput ['a', 'a', 'a', 'a', terminator]) = 0.3 ∧
      ¬ ((forwardStep ['a', 'a', 'a', 'a', terminator] (0, 1)).1
            ≤ toDouble (tryEncodeOutput ['a', 'a', 'a', 'a', terminator]) ∧
          toDouble (tryEncodeOutput ['a', 'a', 'a', 'a', terminator])
            < (forwardStep ['a', 'a', 'a', 'a', terminator] (0, 1)).2) := by
  decide!

/-- C15 (forward-step values of the concrete scenario), as the code computes
them: the forward step on `a` gives `(low, high) = (0, 0.0609)`, and on `a`
followed by the terminator it gives
`(0.0609 * 0.9342, 0.0609 * 1.0) = (0.05689278, 0.0609)`. -/
theorem forwardStep_scenario :
    forwardStep ['a'] (0, 1) = (0, 0.0609) ∧
      forwardStep ['a', terminator] (0, 1) = (0.0609 * 0.9342, 0.0609 * 1.0) ∧
      forwardStep ['a', terminator] (0, 1) = (0.05689278, 0.0609) := by
  decide!

/-- C15, the value stated by the claim: after the terminator the lower bound is
not 0.056913, the product `0.0609 * 0.9342` being 0.05689278. -/
theorem forwardStep_scenario_low :
    forwardStep ['a', terminator] (0, 1) ≠ (0.056913, 0.0609) ∧
      (0.0609 * 0.9342 : ℚ) ≠ 0.056913 := by
  decide!

/-- C16 (out-of-range amounts decode to nothing): for every amount `a` with
`a ≤ 0` or `a ≥ 100000000`, `decode [a]` is the empty string.  When `a` is not
0 no range contains the value, each of the 8 lookups falls through to the last
key `z`, and rescaling by the range of `z` keeps the value out of range; the
amount 0 lies in the range of `a` and is rescaled to 0 each time. -/
theorem decode_out_of_range (a : Int) (h : a ≤ 0 ∨ 100000000 ≤ a) :
    decode [a] = [] ∧
      (a ≠ 0 → symbolTrace (maxSymbolsPerCodeWord + 1) (toReal a)
        = List.replicate (maxSymbolsPerCodeWord + 1) 'z') ∧
      (a = 0 → symbolTrace (maxSymbolsPerCodeWord + 1) (toReal a)
        = List.replicate (maxSymbolsPerCodeWord + 1) 'a') := by
  have hdecode : ∀ b : Int, decode [b] = decodeChunk (toReal b) := by
    intro b
    rw [decode_cons]
    simp [decode]
  have hout : a ≠ 0 → toReal a < 0 ∨ 1 ≤ toReal a := by
    intro hne
    unfold toReal
    rcases h with h | h
    · left
      have hlt : a < 0 := lt_of_le_of_ne h hne
      have : (a : ℚ) < 0 := by exact_mod_cast hlt
      exact div_neg_of_neg_of_pos this (by norm_num)
    · right
      have : (100000000 : ℚ) ≤ (a : ℚ) := by exact_mod_cast h
      rw [one_le_div (by norm_num)]
      exact this
  refine ⟨?_, ?_, ?_⟩
  · by_cases h0 : a = 0
    · subst h0
      decide!
    · rw [hdecode]
      unfold decodeChunk
      rw [decodeChunkLoop_corrupt _ _ _ (by decide) (by simp)]
      · rfl
      · intro s hs
        rw [symbolTrace_out_of_range _ _ (hout h0)] at hs
        rw [List.eq_of_mem_replicate hs]
        decide
  · intro hne
    exact symbolTrace_out_of_range _ _ (hout hne)
  · intro h0
    subst h0
    decide!

theorem decode_out_of_range_witness :
    ((100000000 : Int) ≤ 0 ∨ (100000000 : Int) ≤ 100000000) ∧ decode [100000000] = [] :=
  ⟨by decide, (decode_out_of_range 100000000 (by decide)).1⟩

/-- C12 (forward step non-degeneracy), evaluated at the text `zzzzzz` +
terminator, the second attempt of `encode` on the message `zzzzzzz` (the first
attempt, on 7 symbols, is refused).  In exact arithmetic the interval has the
width `0.0003 ^ 6 * 0.0658`, about 4.8e-23, which is less than `2 ^ (-64)`, the
spacing of the `long double` numbers next to 0.8124; in the arithmetic of the
machine the forward step ends with `low = high`, both being
0.812443733119935875919, so `low < high` does not hold. -/
theorem forwardStep_collapse :
    (mid "zzzzzzz".toList 0 7 ++ [terminator] = "zzzzzzz.".toList ∧
        Machine.tryEncode "zzzzzzz.".toList = none ∧
        mid "zzzzzzz".toList 0 6 ++ [terminator] = "zzzzzz.".toList) ∧
      (∀ c ∈ "zzzzzz.".toList, c ∈ QMap.keys Machine.characterRanges) ∧
      ((forwardStep "zzzzzz.".toList (0, 1)).2 - (forwardStep "zzzzzz.".toList (0, 1)).1
          = 0.0003 ^ 6 * 0.0658 ∧
        (0.0003 ^ 6 * 0.0658 : ℚ) < 1 / 2 ^ 64) ∧
      (Machine.forwardStep "zzzzzz.".toList (0, 1)).1
        = (Machine.forwardStep "zzzzzz.".toList (0, 1)).2 ∧
      ¬ (Machine.forwardStep "zzzzzz.".toList (0, 1)).1
        < (Machine.forwardStep "zzzzzz.".toList (0, 1)).2 ∧
      lexical_cast (Machine.forwardStep "zzzzzz.".toList (0, 1)).1
        = "0.812443733119935875919".toList ∧
      lexical_cast (Machine.forwardStep "zzzzzz.".toList (0, 1)).2
        = "0.812443733119935875919".toList := by
  decide!

/-- C14 (decode is total and bounded): for every value `v`, the loop of
`decodeChunk` returns within 8 passes, each with one symbol lookup; the
divisor `high - low` of every rescaling is positive, so there is no division
by zero; the string returned has at most 7 symbols and does not contain the
terminator; hence `decode` of `n` code words returns at most `7 * n`
characters, none of them the terminator. -/
theorem decode_total_bounded (v : ℚ) :
    (∃ r, decodeChunkLoop (maxSymbolsPerCodeWord + 1) v [] = some r ∧ decodeChunk v = r) ∧
      maxSymbolsPerCodeWord + 1 = 8 ∧
      (∀ u : ℚ, 0 < (findSymbol u (QMap.keys characterRanges) (default, 0, 0)).2.2
        - (findSymbol u (QMap.keys characterRanges) (default, 0, 0)).2.1) ∧
      (decodeChunk v).length ≤ 7 ∧ terminator ∉ decodeChunk v ∧
      (∀ encodedMessage : List Int,
        (decode encodedMessage).length ≤ 7 * encodedMessage.length ∧
          terminator ∉ decode encodedMessage) := by
  refine ⟨⟨decodeChunk v, decodeChunk_fuel_suffices v, rfl⟩, rfl,
    fun u => sub_pos.2 (findSymbol_width u), (decodeChunk_bound v).1, (decodeChunk_bound v).2,
    fun l => ⟨decode_length l, decode_no_terminator l⟩⟩

/-- C11 (greedy maximal chunking), with the cursor as the code moves it: for
every non-empty message `s` over the letters and the space, the `while` loop
accepts a chunk length `K`; with `k = min K |s|` the number of characters of
the chunk, the first code word of `encode s` is the code word of the longest
prefix of `s` of length `k ≤ min 7 |s|` that `tryEncode` accepts (every attempt
being a slice of the original message), the remaining code words are exactly
`encode` of `s` without its first `k` characters, and the cursor advances by
`K`, which skips exactly those `k` characters. -/
theorem greedy_chunking (s : QString) (hne : s ≠ []) (hs : ∀ c ∈ s, c ∈ userSymbols) :
    ∃ K k c, encodeChunk s 0 maxSymbolsPerCodeWord = some (K, c) ∧ k = min K s.length ∧
      1 ≤ k ∧ k ≤ min maxSymbolsPerCodeWord s.length ∧
      tryEncode (s.take k ++ [terminator]) = some c ∧
      (∀ j, k < j → j ≤ min maxSymbolsPerCodeWord s.length →
        tryEncode (s.take j ++ [terminator]) = none) ∧
      encode s = c :: encode (s.drop k) ∧
      Reaches s K [c] ∧ s.drop K = s.drop k := by
  have hpos : 0 < s.length := List.length_pos.2 hne
  have hsome := valid_encodeChunk s hs 0 hpos
  obtain ⟨⟨K, c⟩, he⟩ := Option.ne_none_iff_exists'.1 hsome
  obtain ⟨hK1, hK7, htry⟩ := encodeChunk_some he
  have hmax := encodeChunk_maximal he
  have hreach : Reaches s K [c] := by
    have := Reaches.step Reaches.start hpos he
    rwa [Nat.zero_add, List.nil_append] at this
  have htake : s.take (min K s.length) = s.take K := by
    by_cases hle : K ≤ s.length
    · rw [Nat.min_eq_left hle]
    · rw [Nat.min_eq_right (by omega), List.take_length,
        List.take_of_length_le (by omega)]
  have hdrop : s.drop K = s.drop (min K s.length) := by
    by_cases hle : K ≤ s.length
    · rw [Nat.min_eq_left hle]
    · rw [Nat.min_eq_right (by omega), List.drop_length,
        List.drop_of_length_le (by omega)]
  refine ⟨K, min K s.length, c, he, rfl, ?_, ?_, ?_, ?_, ?_, hreach, hdrop⟩
  · exact Nat.le_min.2 ⟨hK1, hpos⟩
  · exact Nat.le_min.2 ⟨le_trans (Nat.min_le_left _ _) hK7, Nat.min_le_right _ _⟩
  · rw [htake, ← mid_zero]
    exact htry
  · intro j hj hjle
    have hj7 : j ≤ maxSymbolsPerCodeWord := le_trans hjle (Nat.min_le_left _ _)
    have hjlen : j ≤ s.length := le_trans hjle (Nat.min_le_right _ _)
    have hKj : K < j := by
      by_cases hle : K ≤ s.length
      · rwa [Nat.min_eq_left hle] at hj
      · rw [Nat.min_eq_right (by omega)] at hj
        omega
    rw [← mid_zero]
    exact hmax j hKj hj7
  · rw [← hdrop]
    exact encode_first_chunk s hne hs K c he

theorem greedy_chunking_witness :
    (['h', 'i'] : QString) ≠ [] ∧ (∀ c ∈ (['h', 'i'] : QString), c ∈ userSymbols) ∧
      ∃ K k c, encodeChunk ['h', 'i'] 0 maxSymbolsPerCodeWord = some (K, c) ∧
        k = min K (['h', 'i'] : QString).length ∧
        1 ≤ k ∧ k ≤ min maxSymbolsPerCodeWord (['h', 'i'] : QString).length ∧
        tryEncode ((['h', 'i'] : QString).take k ++ [terminator]) = some c ∧
        (∀ j, k < j → j ≤ min maxSymbolsPerCodeWord (['h', 'i'] : QString).length →
          tryEncode ((['h', 'i'] : QString).take j ++ [terminator]) = none) ∧
        encode ['h', 'i'] = c :: encode ((['h', 'i'] : QString).drop k) ∧
        Reaches ['h', 'i'] K [c] ∧
        (['h', 'i'] : QString).drop K = (['h', 'i'] : QString).drop k :=
  ⟨by decide, by decide, greedy_chunking ['h', 'i'] (by decide) (by decide)⟩

/-- C11, the cursor as the claim states it: for the message `a` the first
attempt, with chunk length 7, slices the single character `a` and is accepted,
so the cursor advances by 7, although the longest prefix has length
`min 7 |s| = 1`; no chunk length `k ≤ min 7 |s|` is the one the loop accepts. -/
theorem greedy_chunking_cursor :
    encodeChunk ['a'] 0 maxSymbolsPerCodeWord = some (7, 6000000) ∧
      Reaches ['a'] 7 [6000000] ∧
      min maxSymbolsPerCodeWord (['a'] : QString).length = 1 ∧
      ¬ ∃ k c, k ≤ min maxSymbolsPerCodeWord (['a'] : QString).length ∧
        encodeChunk ['a'] 0 maxSymbolsPerCodeWord = some (k, c) := by
  have he : encodeChunk ['a'] 0 maxSymbolsPerCodeWord = some (7, 6000000) := by decide!
  refine ⟨he, Reaches.step Reaches.start (by decide) he, by decide, ?_⟩
  rintro ⟨k, c, hk, hkc⟩
  rw [he] at hkc
  simp only [Option.some.injEq, Prod.mk.injEq] at hkc
  rw [← hkc.1] at hk
  exact absurd hk (by decide)

end CMessageCoder
